import Mathlib

/-!
Verification of the 0bin command-line lifecycle engine (`zerobin/cli.py`).

The embedding models:
* `unpack_paste` and the regex `"/paste/(?P<paste_id>.*)#(?P<key>.*)"` used
  with `re.search` (leftmost match position, greedy groups, `.` does not
  match a newline);
* `delete_paste`, looping over references and catching `ValueError` from
  `Paste.load`;
* `set_admin_password`, writing `hash_password(password)` to the admin
  password file;
* `clean_expired_pastes`, an expiry sweep over `Paste.iter_all()` followed
  by a reap of empty directories over `DATA_DIR.rglob("*")`, with per-item
  `OSError` handling in the reap loop.

Filesystem state is explicit: a list of paste files (path plus expiry flag)
and a list of directories.  A path is a list of components.
-/

namespace Zerobin

/-- A path in the storage tree, as a list of components. -/
abbrev FPath := List String

/-- One stored paste as seen by the sweep: its on-disk path and the value of
its `has_expired` property at sweep time. -/
structure PasteEntry where
  path : FPath
  has_expired : Bool
deriving DecidableEq, Repr

/-- The storage tree under `DATA_DIR`: paste files and directories. -/
structure FS where
  files : List PasteEntry
  dirs : List FPath
deriving DecidableEq, Repr

/-- `c` is a direct child path of directory `d` (one component deeper and
extending `d`), as `iterdir` would list it. -/
def isChildOf (c d : FPath) : Bool :=
  decide (c.length = d.length + 1 ∧ c.take d.length = d)

/-- Directory `d` exists in the tree (mirrors `p.is_dir()`). -/
def dirExists (fs : FS) (d : FPath) : Bool :=
  decide (d ∈ fs.dirs)

/-- Directory `d` has no entry: no paste file and no directory is a direct
child of it (mirrors `not next(p.iterdir(), None)`). -/
def dirEmpty (fs : FS) (d : FPath) : Bool :=
  fs.files.all (fun f => !(isChildOf f.path d)) &&
    fs.dirs.all (fun e => !(isChildOf e d))

/-- Remove directory `d` from the tree (mirrors `p.rmdir()` on an empty
directory). -/
def removeDir (fs : FS) (d : FPath) : FS :=
  { fs with dirs := fs.dirs.filter (fun e => e ≠ d) }

/-- The expiry sweep of `clean_expired_pastes`: for every paste yielded by
`Paste.iter_all()`, when `has_expired` holds the paste is deleted (unless
`dry_run`) and counted.  Returns the remaining files and the count `i`
printed by the first pass. -/
def sweep_pass (dry_run : Bool) : List PasteEntry → List PasteEntry × Nat
  | [] => ([], 0)
  | f :: rest =>
    let r := sweep_pass dry_run rest
    if f.has_expired then
      (if dry_run then f :: r.1 else r.1, r.2 + 1)
    else
      (f :: r.1, r.2)

/-- The directory-reaping loop of `clean_expired_pastes`, over the walk
order produced by `DATA_DIR.rglob("*")`.  `failing d = true` models an
`OSError` raised inside the `try` block while processing `d`: the error is
recorded (the code prints it), the directory is left in place and the count
is not incremented.  Otherwise a directory that exists and is empty is
removed (unless `dry_run`) and counted.  Returns the final tree, the count
`i` printed by the second pass, and the reported errors in order. -/
def reap_pass (dry_run : Bool) (failing : FPath → Bool) :
    List FPath → FS → Nat → List FPath → FS × Nat × List FPath
  | [], fs, n, errs => (fs, n, errs)
  | d :: rest, fs, n, errs =>
    if failing d then
      reap_pass dry_run failing rest fs n (errs ++ [d])
    else if dirExists fs d && dirEmpty fs d then
      reap_pass dry_run failing rest
        (if dry_run then fs else removeDir fs d) (n + 1) errs
    else
      reap_pass dry_run failing rest fs n errs

/-- `clean_expired_pastes`: the full invocation.  First the expiry sweep
over all pastes, then the directory reap over the walk order `order`
(the directories yielded by `rglob` after the sweep; the sweep never
creates or removes directories).  Returns the final tree, the
pastes-deleted count, the directories-deleted count and the reported
per-directory errors. -/
def clean_expired_pastes (dry_run : Bool) (failing : FPath → Bool)
    (order : List FPath) (fs : FS) : FS × Nat × Nat × List FPath :=
  let s := sweep_pass dry_run fs.files
  let fs1 : FS := { files := s.1, dirs := fs.dirs }
  let r := reap_pass dry_run failing order fs1 0 []
  (r.1, s.2, r.2.1, r.2.2)

/-! ### `unpack_paste` and the paste-URL regex

`paste_url = re.compile("/paste/(?P<paste_id>.*)#(?P<key>.*)")` and
`paste_url.search(paste)`.  `re.search` tries match positions left to
right; at a position the literal `/paste/` must occur, then a greedy `.*`
(never matching a newline), then `#`, then `.*`.  Greediness makes
`paste_id` run to the last `#` that lies before the first newline after
the literal. -/

/-- The literal `/paste/` of the regex, as characters. -/
def pasteLit : List Char := [ '/', 'p', 'a', 's', 't', 'e', '/' ]

/-- Given the text after the literal restricted to its first line, return
the characters before the last `#`, when there is one: the greedy
`paste_id` group. -/
def beforeLastHash (seg : List Char) : Option (List Char) :=
  match seg.reverse.dropWhile (fun c => c != '#') with
  | [] => none
  | _ :: rest => some rest.reverse

/-- Attempt of the regex at one fixed position: the literal must start
here; `paste_id` is then everything up to the last `#` on the same line. -/
def matchAt (cs : List Char) : Option (List Char) :=
  if cs.take 7 = pasteLit then
    beforeLastHash ((cs.drop 7).takeWhile (fun c => c != '\n'))
  else
    none

/-- `paste_url.search`: the match at the leftmost position where the whole
regex can match, returning the `paste_id` group. -/
def searchPasteUrl : List Char → Option (List Char)
  | [] => none
  | c :: rest =>
    match matchAt (c :: rest) with
    | some r => some r
    | none => searchPasteUrl rest

/-- `unpack_paste`: take either the ID or the URL of a paste and return its
ID; an input the regex does not match is returned unchanged. -/
def unpack_paste (paste : String) : String :=
  match searchPasteUrl paste.toList with
  | some r => String.mk r
  | none => paste

/-- Auxiliary occurrence check used in hypotheses about `unpack_paste`:
does a position of the text start like the regex literal `/paste/`?
`hasLit (base ++ pasteLit.take 6) = false` states that no position
strictly inside `base` starts an occurrence of the literal when `base` is
immediately followed by the literal itself. -/
def hasLit : List Char → Bool
  | [] => false
  | c :: rest => decide ((c :: rest).take 7 = pasteLit) || hasLit rest

/-! ### `delete_paste` -/

/-- A line printed by `delete_paste` for one reference. -/
inductive DelMsg where
  | removed (uuid : String)
  | missing (uuid : String)
deriving DecidableEq, Repr

/-- Modelled from the spec: `Paste.load` (in `zerobin/paste.py`, not part
of the sources here) raises `ValueError` exactly when no paste with the
given id exists on disk (nonexistent or malformed id), and
`Paste.load(uuid).delete()` removes the paste with that id.  The store is
the list of ids present on disk. -/
def delete_paste (quiet : Bool) :
    List String → List String → List String × List DelMsg
  | [], store => (store, [])
  | p :: rest, store =>
    let uuid := unpack_paste p
    if store.contains uuid then
      let r := delete_paste quiet rest (store.erase uuid)
      (r.1, (if quiet then [] else [DelMsg.removed uuid]) ++ r.2)
    else
      let r := delete_paste quiet rest store
      (r.1, (if quiet then [] else [DelMsg.missing uuid]) ++ r.2)

/-! ### `set_admin_password` -/

/-- Modelled from the spec: the configuration directory as a store of
files, written by `Path.write_bytes`, which replaces the whole content of
the target file.  File contents are byte lists. -/
def write_bytes (store : List (String × List Nat)) (path : String)
    (content : List Nat) : List (String × List Nat) :=
  (path, content) :: store.filter (fun e => e.1 ≠ path)

/-- Read back the content of a file of the store. -/
def readBytes (store : List (String × List Nat)) (path : String) :
    Option (List Nat) :=
  (store.find? (fun e => e.1 == path)).map (fun e => e.2)

/-- `set_admin_password`: writes `hash_password(password)` to
`settings.ADMIN_PASSWORD_FILE`.  `hash_password` (from `zerobin/utils.py`,
not part of the sources here) is abstracted as a function parameter. -/
def set_admin_password (hash_password : String → List Nat)
    (admin_password_file : String) (password : String)
    (store : List (String × List Nat)) : List (String × List Nat) :=
  write_bytes store admin_password_file (hash_password password)

/-! ### Lemmas about the expiry sweep -/

theorem sweep_pass_count (dry_run : Bool) (files : List PasteEntry) :
    (sweep_pass dry_run files).2 =
      (files.filter (fun f => f.has_expired)).length := by
  induction files with
  | nil => simp [sweep_pass]
  | cons f rest ih =>
    by_cases h : f.has_expired = true <;>
      simp [sweep_pass, h, List.filter_cons, ih]

theorem sweep_pass_dry (files : List PasteEntry) :
    (sweep_pass true files).1 = files := by
  induction files with
  | nil => simp [sweep_pass]
  | cons f rest ih =>
    by_cases h : f.has_expired = true <;> simp [sweep_pass, h, ih]

theorem sweep_pass_live (files : List PasteEntry) :
    (sweep_pass false files).1 =
      files.filter (fun f => !f.has_expired) := by
  induction files with
  | nil => simp [sweep_pass]
  | cons f rest ih =>
    by_cases h : f.has_expired = true <;>
      simp [sweep_pass, h, List.filter_cons, ih]

/-! ### Lemmas about the directory reap -/

theorem reap_pass_files (dry_run : Bool) (failing : FPath → Bool)
    (order : List FPath) :
    ∀ fs n errs,
      (reap_pass dry_run failing order fs n errs).1.files = fs.files := by
  induction order with
  | nil => intro fs n errs; simp [reap_pass]
  | cons d rest ih =>
    intro fs n errs
    by_cases h1 : failing d = true
    · simp [reap_pass, h1, ih]
    · by_cases h2 : (dirExists fs d && dirEmpty fs d) = true
      · by_cases h3 : dry_run = true
        · subst h3; simp [reap_pass, h1, h2, ih]
        · have h3f : dry_run = false := by simpa using h3
          subst h3f; simp [reap_pass, h1, h2, ih, removeDir]
      · simp [reap_pass, h1, h2, ih]

theorem reap_pass_dry (failing : FPath → Bool) (order : List FPath) :
    ∀ fs n errs, (reap_pass true failing order fs n errs).1 = fs := by
  induction order with
  | nil => intro fs n errs; simp [reap_pass]
  | cons d rest ih =>
    intro fs n errs
    by_cases h1 : failing d = true
    · simp [reap_pass, h1, ih]
    · by_cases h2 : (dirExists fs d && dirEmpty fs d) = true <;>
        simp [reap_pass, h1, h2, ih]

theorem reap_pass_dry_count (failing : FPath → Bool) (order : List FPath) :
    ∀ fs n errs,
      (reap_pass true failing order fs n errs).2.1 =
        n + (order.filter
          (fun d => !failing d && (dirExists fs d && dirEmpty fs d))).length := by
  induction order with
  | nil => intro fs n errs; simp [reap_pass]
  | cons d rest ih =>
    intro fs n errs
    by_cases h1 : failing d = true
    · simp [reap_pass, h1, List.filter_cons, ih]
    · by_cases h2 : (dirExists fs d && dirEmpty fs d) = true
      · simp [reap_pass, h1, h2, List.filter_cons, ih]
        omega
      · simp [reap_pass, h1, h2, List.filter_cons, ih]

theorem reap_pass_dirs_subset (dry_run : Bool) (failing : FPath → Bool)
    (order : List FPath) :
    ∀ fs n errs e,
      e ∈ (reap_pass dry_run failing order fs n errs).1.dirs →
        e ∈ fs.dirs := by
  induction order with
  | nil => intro fs n errs e h; simpa [reap_pass] using h
  | cons d rest ih =>
    intro fs n errs e h
    by_cases h1 : failing d = true
    · exact ih _ _ _ _ (by simpa [reap_pass, h1] using h)
    · by_cases h2 : (dirExists fs d && dirEmpty fs d) = true
      · by_cases h3 : dry_run = true
        · exact ih _ _ _ _ (by simpa [reap_pass, h1, h2, h3] using h)
        · have h4 := ih _ _ _ _ (by simpa [reap_pass, h1, h2, h3] using h)
          have h5 : e ∈ fs.dirs ∧ e ≠ d := by
            simpa [removeDir, List.mem_filter] using h4
          exact h5.1
      · exact ih _ _ _ _ (by simpa [reap_pass, h1, h2] using h)

theorem dirEmpty_removeDir (fs : FS) (d e : FPath)
    (h : dirEmpty fs d = true) : dirEmpty (removeDir fs e) d = true := by
  simp only [dirEmpty, removeDir, Bool.and_eq_true, List.all_eq_true] at h ⊢
  refine ⟨h.1, fun x hx => h.2 x ?_⟩
  exact (List.mem_filter.mp hx).1

theorem reap_pass_keeps_nonempty (dry_run : Bool) (failing : FPath → Bool)
    (order : List FPath) :
    ∀ fs n errs d f, f ∈ fs.files → isChildOf f.path d = true →
      d ∈ fs.dirs →
      d ∈ (reap_pass dry_run failing order fs n errs).1.dirs := by
  induction order with
  | nil => intro fs n errs d f hf hc hd; simpa [reap_pass] using hd
  | cons e rest ih =>
    intro fs n errs d f hf hc hd
    have hne : dirEmpty fs d = false := by
      by_cases h : dirEmpty fs d = true
      · exfalso
        simp only [dirEmpty, Bool.and_eq_true, List.all_eq_true] at h
        have := h.1 f hf
        simp [hc] at this
      · simpa using h
    by_cases h1 : failing e = true
    · simpa [reap_pass, h1] using ih fs n (errs ++ [e]) d f hf hc hd
    · by_cases h2 : (dirExists fs e && dirEmpty fs e) = true
      · by_cases h3 : dry_run = true
        · simpa [reap_pass, h1, h2, h3] using ih fs (n + 1) errs d f hf hc hd
        · have hed : e ≠ d := by
            intro hcontra
            rw [hcontra] at h2
            simp [hne] at h2
          have hd2 : d ∈ (removeDir fs e).dirs := by
            simp [removeDir, List.mem_filter]
            exact ⟨hd, fun hx => hed hx.symm⟩
          have hf2 : f ∈ (removeDir fs e).files := by simpa [removeDir] using hf
          simpa [reap_pass, h1, h2, h3] using
            ih (removeDir fs e) (n + 1) errs d f hf2 hc hd2
      · simpa [reap_pass, h1, h2] using ih fs n errs d f hf hc hd

theorem reap_pass_removes_empty (failing : FPath → Bool)
    (order : List FPath) :
    ∀ fs n errs d, d ∈ order → failing d = false → dirEmpty fs d = true →
      d ∉ (reap_pass false failing order fs n errs).1.dirs := by
  induction order with
  | nil => intro fs n errs d h; simp at h
  | cons e rest ih =>
    intro fs n errs d hmem hfail hempty
    by_cases h1 : failing e = true
    · have hed : e ≠ d := by
        intro hcontra; rw [hcontra] at h1; rw [h1] at hfail; cases hfail
      have hrest : d ∈ rest := by
        rcases List.mem_cons.mp hmem with h | h
        · exact absurd h.symm hed
        · exact h
      simpa [reap_pass, h1] using ih fs n (errs ++ [e]) d hrest hfail hempty
    · by_cases h2 : (dirExists fs e && dirEmpty fs e) = true
      · by_cases hed : e = d
        · subst hed
          intro hmem2
          have hsub := reap_pass_dirs_subset false failing rest
            (removeDir fs e) (n + 1) errs e (by simpa [reap_pass, h1, h2] using hmem2)
          simp [removeDir, List.mem_filter] at hsub
        · have hrest : d ∈ rest := by
            rcases List.mem_cons.mp hmem with h | h
            · exact absurd h.symm hed
            · exact h
          simpa [reap_pass, h1, h2] using
            ih (removeDir fs e) (n + 1) errs d hrest hfail
              (dirEmpty_removeDir fs d e hempty)
      · by_cases hed : e = d
        · subst hed
          have hnex : dirExists fs e = false := by
            by_cases h : dirExists fs e = true
            · exfalso; apply h2; simp [h, hempty]
            · simpa using h
          intro hmem2
          have hsub := reap_pass_dirs_subset false failing rest fs n errs e
            (by simpa [reap_pass, h1, h2] using hmem2)
          simp [dirExists] at hnex
          exact hnex hsub
        · have hrest : d ∈ rest := by
            rcases List.mem_cons.mp hmem with h | h
            · exact absurd h.symm hed
            · exact h
          simpa [reap_pass, h1, h2] using ih fs n errs d hrest hfail hempty

theorem reap_pass_errs_mono (dry_run : Bool) (failing : FPath → Bool)
    (order : List FPath) :
    ∀ fs n errs x, x ∈ errs →
      x ∈ (reap_pass dry_run failing order fs n errs).2.2 := by
  induction order with
  | nil => intro fs n errs x hx; simpa [reap_pass] using hx
  | cons d rest ih =>
    intro fs n errs x hx
    by_cases h1 : failing d = true
    · have hx2 : x ∈ errs ++ [d] := by simp [hx]
      have hrec := ih fs n (errs ++ [d]) x hx2
      simpa [reap_pass, h1] using hrec
    · by_cases h2 : (dirExists fs d && dirEmpty fs d) = true
      · simpa [reap_pass, h1, h2] using
          ih (if dry_run then fs else removeDir fs d) (n + 1) errs x hx
      · simpa [reap_pass, h1, h2] using ih fs n errs x hx

/-- Shared helper: a dry-run invocation returns the storage tree unchanged. -/
theorem clean_dry_run_eq (failing : FPath → Bool) (order : List FPath)
    (fs : FS) : (clean_expired_pastes true failing order fs).1 = fs := by
  cases fs with
  | mk files dirs =>
    simp [clean_expired_pastes, sweep_pass_dry, reap_pass_dry]

end Zerobin

open Zerobin

/-- C2: in every invocation of `clean_expired_pastes` the pastes-deleted
count equals the number of pastes yielded by `Paste.iter_all()` whose
`has_expired` is true, for dry runs as well (the same count is reported as
would-have-been-deleted), and a dry run leaves every paste on disk. -/
theorem clean_expired_pastes_count_spec :
    (∀ (dry_run : Bool) (failing : FPath → Bool) (order : List FPath)
        (fs : FS),
      (clean_expired_pastes dry_run failing order fs).2.1 =
        (fs.files.filter (fun f => f.has_expired)).length) ∧
    (∀ (failing : FPath → Bool) (order : List FPath) (fs : FS),
      (clean_expired_pastes true failing order fs).1.files = fs.files) := by
  constructor
  · intro dry_run failing order fs
    simp [clean_expired_pastes, sweep_pass_count]
  · intro failing order fs
    rw [clean_dry_run_eq]

/-- C3: with `dry_run=True`, `clean_expired_pastes` mutates nothing: the
final storage tree (pastes and directories) equals the initial one. -/
theorem clean_expired_pastes_dry_run_frame (failing : FPath → Bool)
    (order : List FPath) (fs : FS) :
    (clean_expired_pastes true failing order fs).1 = fs :=
  clean_dry_run_eq failing order fs

/-- C10: in dry-run mode the directories-would-be-deleted count counts
exactly the walked directories that exist and are already empty in the
initial tree (no paste deletion having occurred), and this can differ from
what a non-dry-run invocation on the same state removes: with one
directory holding one expired paste, the dry run counts 0 directories
while the real run removes 1. -/
theorem clean_expired_pastes_dry_run_dir_count :
    (∀ (failing : FPath → Bool) (order : List FPath) (fs : FS),
      (clean_expired_pastes true failing order fs).2.2.1 =
        (order.filter
          (fun d => !failing d && (dirExists fs d && dirEmpty fs d))).length) ∧
    (clean_expired_pastes true (fun _ => false) [["aa"]]
        { files := [⟨["aa", "f1"], true⟩], dirs := [["aa"]] }).2.2.1 ≠
      (clean_expired_pastes false (fun _ => false) [["aa"]]
        { files := [⟨["aa", "f1"], true⟩], dirs := [["aa"]] }).2.2.1 := by
  constructor
  · intro failing order fs
    cases fs with
    | mk files dirs =>
      simp [clean_expired_pastes, sweep_pass_dry, reap_pass_dry_count]
  · decide

/-- C5: during the directory-reaping pass, a filesystem error (`OSError`)
raised while processing one directory is caught for that item alone: the
error is reported, the state and the directories-deleted count are passed
unchanged to the processing of the remaining directories, and processing
continues with them. -/
theorem reap_pass_oserror_isolated (dry_run : Bool) (failing : FPath → Bool)
    (d : FPath) (rest : List FPath) (fs : FS) (n : Nat) (errs : List FPath)
    (h : failing d = true) :
    reap_pass dry_run failing (d :: rest) fs n errs =
      reap_pass dry_run failing rest fs n (errs ++ [d]) ∧
    d ∈ (reap_pass dry_run failing (d :: rest) fs n errs).2.2 := by
  have heq : reap_pass dry_run failing (d :: rest) fs n errs =
      reap_pass dry_run failing rest fs n (errs ++ [d]) := by
    simp [reap_pass, h]
  refine ⟨heq, ?_⟩
  rw [heq]
  exact reap_pass_errs_mono dry_run failing rest fs n (errs ++ [d]) d
    (by simp)

/-- Witness for C5 at a concrete failing directory. -/
theorem reap_pass_oserror_isolated_witness :
    (reap_pass false (fun p => decide (p = ["bad"])) [["bad"], ["ok"]]
        { files := [], dirs := [["bad"], ["ok"]] } 0 [] =
      reap_pass false (fun p => decide (p = ["bad"])) [["ok"]]
        { files := [], dirs := [["bad"], ["ok"]] } 0 [["bad"]]) ∧
    ["bad"] ∈ (reap_pass false (fun p => decide (p = ["bad"]))
        [["bad"], ["ok"]]
        { files := [], dirs := [["bad"], ["ok"]] } 0 []).2.2 :=
  reap_pass_oserror_isolated false (fun p => decide (p = ["bad"]))
    ["bad"] [["ok"]] { files := [], dirs := [["bad"], ["ok"]] } 0 []
    (by decide)

/-- C4: the expiry sweep runs to completion before any directory removal:
the final set of paste files is exactly the output of the sweep (the reap
never touches a paste), and a directory removed by the full invocation can
never have held a live paste — every paste file it held was expired, hence
already deleted by the completed sweep when the removal happened. -/
theorem clean_expired_pastes_sweep_before_reap :
    (∀ (dry_run : Bool) (failing : FPath → Bool) (order : List FPath)
        (fs : FS),
      (clean_expired_pastes dry_run failing order fs).1.files =
        (sweep_pass dry_run fs.files).1) ∧
    (∀ (dry_run : Bool) (failing : FPath → Bool) (order : List FPath)
        (fs : FS) (d : FPath) (f : PasteEntry),
      d ∈ fs.dirs →
      d ∉ (clean_expired_pastes dry_run failing order fs).1.dirs →
      f ∈ fs.files → isChildOf f.path d = true → f.has_expired = true) := by
  constructor
  · intro dry_run failing order fs
    simp [clean_expired_pastes, reap_pass_files]
  · intro dry_run failing order fs d f hd hnotin hf hc
    by_cases hdr : dry_run = true
    · subst hdr
      rw [clean_dry_run_eq failing order fs] at hnotin
      exact absurd hd hnotin
    · have hdr2 : dry_run = false := by simpa using hdr
      subst hdr2
      by_cases hfe : f.has_expired = true
      · exact hfe
      · exfalso
        have hlive : f.has_expired = false := by simpa using hfe
        have hf1 : f ∈ (sweep_pass false fs.files).1 := by
          rw [sweep_pass_live]
          exact List.mem_filter.mpr ⟨hf, by simp [hlive]⟩
        exact hnotin (reap_pass_keeps_nonempty false failing order
          { files := (sweep_pass false fs.files).1, dirs := fs.dirs }
          0 [] d f hf1 hc hd)

/-- Witness for C4 at a concrete tree with one expired paste in one
directory. -/
theorem clean_expired_pastes_sweep_before_reap_witness :
    ((clean_expired_pastes false (fun _ => false) [["aa"]]
        { files := [⟨["aa", "f1"], true⟩], dirs := [["aa"]] }).1.files =
      (sweep_pass false
        ({ files := [⟨["aa", "f1"], true⟩], dirs := [["aa"]] } : FS).files).1) ∧
    (⟨["aa", "f1"], true⟩ : PasteEntry).has_expired = true :=
  ⟨clean_expired_pastes_sweep_before_reap.1 false (fun _ => false) [["aa"]]
      { files := [⟨["aa", "f1"], true⟩], dirs := [["aa"]] },
    clean_expired_pastes_sweep_before_reap.2 false (fun _ => false) [["aa"]]
      { files := [⟨["aa", "f1"], true⟩], dirs := [["aa"]] }
      ["aa"] ⟨["aa", "f1"], true⟩ (by decide) (by decide) (by decide)
      (by decide)⟩

/-- C1: after one full non-dry-run invocation, a walked directory whose
entries were all expired pastes (and that raised no error) no longer
exists, while a directory containing at least one live paste is never
removed. -/
theorem clean_expired_pastes_dir_reaping :
    (∀ (failing : FPath → Bool) (order : List FPath) (fs : FS) (d : FPath),
      d ∈ order → failing d = false →
      (∀ e ∈ fs.dirs, isChildOf e d = false) →
      (∀ f ∈ fs.files, isChildOf f.path d = true → f.has_expired = true) →
      d ∉ (clean_expired_pastes false failing order fs).1.dirs) ∧
    (∀ (failing : FPath → Bool) (order : List FPath) (fs : FS) (d : FPath)
        (f : PasteEntry),
      d ∈ fs.dirs → f ∈ fs.files → isChildOf f.path d = true →
      f.has_expired = false →
      d ∈ (clean_expired_pastes false failing order fs).1.dirs) := by
  constructor
  · intro failing order fs d hmem hfail hdirs hfiles
    have hempty : dirEmpty
        { files := (sweep_pass false fs.files).1, dirs := fs.dirs } d = true := by
      simp only [dirEmpty, Bool.and_eq_true, List.all_eq_true]
      constructor
      · intro f hf
        rw [sweep_pass_live] at hf
        have hf2 := List.mem_filter.mp hf
        by_cases hc : isChildOf f.path d = true
        · exfalso
          have := hfiles f hf2.1 hc
          simp [this] at hf2
        · simp [Bool.not_eq_true] at hc
          simp [hc]
      · intro e he
        have := hdirs e he
        simp [this]
    exact reap_pass_removes_empty failing order
      { files := (sweep_pass false fs.files).1, dirs := fs.dirs }
      0 [] d hmem hfail hempty
  · intro failing order fs d f hd hf hc hlive
    have hf1 : f ∈ (sweep_pass false fs.files).1 := by
      rw [sweep_pass_live]
      exact List.mem_filter.mpr ⟨hf, by simp [hlive]⟩
    exact reap_pass_keeps_nonempty false failing order
      { files := (sweep_pass false fs.files).1, dirs := fs.dirs }
      0 [] d f hf1 hc hd

/-- Witness for C1: a directory of one expired paste disappears; a
directory holding a live paste survives. -/
theorem clean_expired_pastes_dir_reaping_witness :
    ["aa"] ∉ (clean_expired_pastes false (fun _ => false) [["aa"]]
      { files := [⟨["aa", "f1"], true⟩], dirs := [["aa"]] }).1.dirs ∧
    ["bb"] ∈ (clean_expired_pastes false (fun _ => false) [["bb"]]
      { files := [⟨["bb", "g1"], false⟩], dirs := [["bb"]] }).1.dirs :=
  ⟨clean_expired_pastes_dir_reaping.1 (fun _ => false) [["aa"]]
      { files := [⟨["aa", "f1"], true⟩], dirs := [["aa"]] } ["aa"]
      (by decide) (by decide) (by decide) (by decide),
    clean_expired_pastes_dir_reaping.2 (fun _ => false) [["bb"]]
      { files := [⟨["bb", "g1"], false⟩], dirs := [["bb"]] } ["bb"]
      ⟨["bb", "g1"], false⟩ (by decide) (by decide) (by decide) (by decide)⟩
theorem searchPasteUrl_cons (c : Char) (l : List Char) :
    searchPasteUrl (c :: l) =
      match matchAt (c :: l) with
      | some r => some r
      | none => searchPasteUrl l := rfl

theorem take7_lit (rest : List Char) : (pasteLit ++ rest).take 7 = pasteLit := rfl

theorem drop7_lit (rest : List Char) : (pasteLit ++ rest).drop 7 = rest := rfl

theorem takeWhile_append_hash (b rest2 : List Char)
    (hb : b.all (fun c => c != '\n') = true) :
    (b ++ '#' :: rest2).takeWhile (fun c => c != '\n') =
      b ++ '#' :: rest2.takeWhile (fun c => c != '\n') := by
  induction b with
  | nil => simp [List.takeWhile_cons]
  | cons a b2 ih =>
    simp only [List.all_cons, Bool.and_eq_true] at hb
    simp [List.takeWhile_cons, hb.1, ih hb.2]

theorem dropWhile_append_all (p : Char → Bool) (xs ys : List Char)
    (h : xs.all p = true) :
    (xs ++ ys).dropWhile p = ys.dropWhile p := by
  induction xs with
  | nil => simp
  | cons a xs2 ih =>
    simp only [List.all_cons, Bool.and_eq_true] at h
    simp [List.dropWhile_cons, h.1, ih h.2]

theorem beforeLastHash_append (b c2 : List Char)
    (hc : c2.all (fun c => c != '#') = true) :
    beforeLastHash (b ++ '#' :: c2) = some b := by
  have hrev : (b ++ '#' :: c2).reverse = c2.reverse ++ '#' :: b.reverse := by
    simp
  have hall : c2.reverse.all (fun c => c != '#') = true := by
    simp only [List.all_eq_true] at hc ⊢
    intro x hx
    exact hc x (List.mem_reverse.mp hx)
  unfold beforeLastHash
  rw [hrev, dropWhile_append_all _ _ _ hall]
  simp [List.dropWhile_cons]



theorem matchAt_decomp (b c2 : List Char)
    (hb : b.all (fun c => c != '\n') = true)
    (hc : c2.all (fun c => c != '#') = true) :
    matchAt (pasteLit ++ (b ++ '#' :: c2)) = some b := by
  have hsub : (c2.takeWhile (fun c => c != '\n')).all
      (fun c => c != '#') = true := by
    simp only [List.all_eq_true] at hc ⊢
    intro x hx
    exact hc x ((List.takeWhile_sublist _).mem hx)
  unfold matchAt
  rw [take7_lit, drop7_lit, if_pos rfl, takeWhile_append_hash b _ hb,
    beforeLastHash_append b _ hsub]

theorem take7_transfer (a : Char) (u rest : List Char) :
    (a :: (u ++ (pasteLit ++ rest))).take 7 =
      (a :: (u ++ pasteLit.take 6)).take 7 := by
  have h1 : ((a :: u) ++ (pasteLit ++ rest)).take 7 =
      (a :: u).take 7 ++ (pasteLit ++ rest).take (7 - (a :: u).length) :=
    List.take_append_eq_append_take
  have h2 : ((a :: u) ++ pasteLit.take 6).take 7 =
      (a :: u).take 7 ++ (pasteLit.take 6).take (7 - (a :: u).length) :=
    List.take_append_eq_append_take
  rw [List.cons_append] at h1 h2
  rw [h1, h2]
  congr 1
  have hm : 7 - (a :: u).length ≤ 6 := by simp
  rw [List.take_take, Nat.min_eq_left hm]
  exact List.take_append_of_le_length (by simp [pasteLit]; omega)

theorem search_decomp (base b c2 : List Char)
    (hno : hasLit (base ++ pasteLit.take 6) = false)
    (hb : b.all (fun c => c != '\n') = true)
    (hc : c2.all (fun c => c != '#') = true) :
    searchPasteUrl (base ++ (pasteLit ++ (b ++ '#' :: c2))) = some b := by
  induction base with
  | nil =>
    rw [List.nil_append]
    rw [show pasteLit ++ (b ++ '#' :: c2) =
      '/' :: ([ 'p', 'a', 's', 't', 'e', '/' ] ++ (b ++ '#' :: c2)) from rfl]
    rw [searchPasteUrl_cons]
    rw [show '/' :: ([ 'p', 'a', 's', 't', 'e', '/' ] ++ (b ++ '#' :: c2)) =
      pasteLit ++ (b ++ '#' :: c2) from rfl]
    rw [matchAt_decomp b c2 hb hc]
  | cons a u ih =>
    rw [List.cons_append] at hno
    rw [hasLit] at hno
    simp only [Bool.or_eq_false_iff, decide_eq_false_iff_not] at hno
    rw [show (a :: u) ++ (pasteLit ++ (b ++ '#' :: c2)) =
      a :: (u ++ (pasteLit ++ (b ++ '#' :: c2))) from rfl]
    rw [searchPasteUrl_cons]
    have hcond : matchAt (a :: (u ++ (pasteLit ++ (b ++ '#' :: c2)))) = none := by
      unfold matchAt
      rw [if_neg]
      rw [take7_transfer a u (b ++ '#' :: c2)]
      exact hno.1
    rw [hcond]
    exact ih hno.2



theorem dropWhile_eq_cons_neg (p : Char → Bool) (l : List Char)
    (x : Char) (xs : List Char) (h : l.dropWhile p = x :: xs) :
    p x = false := by
  induction l with
  | nil => simp [List.dropWhile] at h
  | cons a l2 ih =>
    rw [List.dropWhile_cons] at h
    by_cases ha : p a = true
    · rw [if_pos ha] at h
      exact ih h
    · rw [if_neg ha] at h
      cases h
      simpa using ha

theorem all_takeWhile (p : Char → Bool) (l : List Char) :
    (l.takeWhile p).all p = true := by
  induction l with
  | nil => simp
  | cons a l2 ih =>
    rw [List.takeWhile_cons]
    by_cases ha : p a = true
    · rw [if_pos ha]
      simp [ha, ih]
    · rw [if_neg ha]
      simp

theorem beforeLastHash_some (seg r : List Char)
    (h : beforeLastHash seg = some r) :
    ∃ t, seg = r ++ '#' :: t := by
  unfold beforeLastHash at h
  cases hdw : seg.reverse.dropWhile (fun c => c != '#') with
  | nil => rw [hdw] at h; cases h
  | cons x rest2 =>
    rw [hdw] at h
    have hx : x = '#' := by
      have hpx := dropWhile_eq_cons_neg _ _ _ _ hdw
      simpa using hpx
    have hr : r = rest2.reverse := by cases h; rfl
    have hsplit := List.takeWhile_append_dropWhile
      (fun c => c != '#') seg.reverse
    rw [hdw, hx] at hsplit
    have hrev := congrArg List.reverse hsplit
    simp only [List.reverse_append, List.reverse_reverse,
      List.reverse_cons] at hrev
    refine ⟨(seg.reverse.takeWhile (fun c => c != '#')).reverse, ?_⟩
    rw [hr]
    conv_lhs => rw [← hrev]
    simp

theorem search_some_decomp (cs : List Char) (r : List Char)
    (h : searchPasteUrl cs = some r) :
    ∃ a t, cs = a ++ (pasteLit ++ (r ++ '#' :: t)) ∧
      r.all (fun c => c != '\n') = true := by
  induction cs with
  | nil => simp [searchPasteUrl] at h
  | cons c rest ih =>
    rw [searchPasteUrl_cons] at h
    cases hm : matchAt (c :: rest) with
    | none =>
      rw [hm] at h
      obtain ⟨a, t, heq, hall⟩ := ih h
      exact ⟨c :: a, t, by rw [List.cons_append, heq], hall⟩
    | some r2 =>
      rw [hm] at h
      have hr : r2 = r := by cases h; rfl
      subst hr
      unfold matchAt at hm
      by_cases hcond : (c :: rest).take 7 = pasteLit
      · rw [if_pos hcond] at hm
        obtain ⟨t0, hseg⟩ := beforeLastHash_some _ _ hm
        have hsegall := all_takeWhile (fun c => c != '\n')
          ((c :: rest).drop 7)
        rw [hseg] at hsegall
        simp only [List.all_append, List.all_cons, Bool.and_eq_true] at hsegall
        have hta : pasteLit ++ (c :: rest).drop 7 = c :: rest := by
          have h0 := List.take_append_drop 7 (c :: rest)
          rw [hcond] at h0
          exact h0
        have htw := List.takeWhile_append_dropWhile
          (fun c => c != '\n') ((c :: rest).drop 7)
        rw [hseg] at htw
        have hgoal : (c :: rest).drop 7 =
            r2 ++ '#' :: (t0 ++ ((c :: rest).drop 7).dropWhile
              (fun c => c != '\n')) := by
          conv_lhs => rw [← htw]
          simp
        refine ⟨[], t0 ++ ((c :: rest).drop 7).dropWhile
          (fun c => c != '\n'), ?_, hsegall.1⟩
        rw [List.nil_append, ← hgoal]
        exact hta.symm
      · rw [if_neg hcond] at hm
        cases hm


/-- C7: `unpack_paste` decomposes a shareable reference.  When the input is
`base + "/paste/" + id + "#" + key` — with no occurrence of the literal
`/paste/` starting before the shown one, `id` free of `#` and of newlines,
and `key` free of `#` — the returned identifier is exactly `id`, never the
key.  An input in which the pattern (`/paste/`, then a newline-free
stretch, then `#`) occurs nowhere is returned unchanged. -/
theorem unpack_paste_id_extraction :
    (∀ (base b c2 : List Char),
      hasLit (base ++ pasteLit.take 6) = false →
      b.all (fun c => c != '\n') = true →
      b.all (fun c => c != '#') = true →
      c2.all (fun c => c != '#') = true →
      unpack_paste (String.mk (base ++ (pasteLit ++ (b ++ '#' :: c2)))) =
        String.mk b) ∧
    (∀ s : String,
      (¬ ∃ a b c2 : List Char,
        s.toList = a ++ (pasteLit ++ (b ++ '#' :: c2)) ∧
          b.all (fun c => c != '\n') = true) →
      unpack_paste s = s) := by
  constructor
  · intro base b c2 hno hb _hbh hc
    unfold unpack_paste
    rw [show (String.mk (base ++ (pasteLit ++ (b ++ '#' :: c2)))).toList =
      base ++ (pasteLit ++ (b ++ '#' :: c2)) from rfl]
    rw [search_decomp base b c2 hno hb hc]
  · intro s hno
    cases hs : searchPasteUrl s.toList with
    | none => unfold unpack_paste; rw [hs]
    | some r =>
      exfalso
      obtain ⟨a, t, heq, hall⟩ := search_some_decomp s.toList r hs
      exact hno ⟨a, r, t, heq, hall⟩

/-- Witness for C7: a full URL yields the bare id; a bare id comes back
unchanged. -/
theorem unpack_paste_id_extraction_witness :
    unpack_paste (String.mk (("http://host.tld".toList) ++
      (pasteLit ++ (("abc12".toList) ++ '#' :: ("KeY9".toList))))) =
        String.mk ("abc12".toList) ∧
    unpack_paste "zid" = "zid" := by
  constructor
  · exact unpack_paste_id_extraction.1 ("http://host.tld".toList)
      ("abc12".toList) ("KeY9".toList) (by decide) (by decide) (by decide)
      (by decide)
  · refine unpack_paste_id_extraction.2 "zid" ?_
    rintro ⟨a, b, c2, heq, -⟩
    have h3 : ("zid".toList).length = 3 := rfl
    rw [heq] at h3
    simp [pasteLit] at h3
    omega

/-- C9 counterexample: with a newline between the two `#` characters the
identifier is cut at the last `#` of the first line, not at the last `#`
of the whole input, so the claim as stated fails on
`"/paste/a#b\nc#d"` (it would require the result `"a#b\nc"`, the code
returns `"a"`). -/
theorem unpack_paste_last_hash_counterexample :
    unpack_paste "/paste/a#b\nc#d" = "a" ∧
    unpack_paste "/paste/a#b\nc#d" ≠ "a#b\nc" := by
  constructor
  · rfl
  · decide

/-- C9 amended: greediness splits at the last `#` that lies on the same
line as the id: for `base + "/paste/" + b + "#" + c` with no earlier
occurrence of the literal, `b` newline-free but containing `#`, and `c`
free of `#`, the returned identifier is the whole of `b` — everything
between `/paste/` and the final `#` before a newline — not the part before
the first `#`. -/
theorem unpack_paste_last_hash_amended (base b c2 : List Char)
    (hno : hasLit (base ++ pasteLit.take 6) = false)
    (hb : b.all (fun c => c != '\n') = true)
    (_hbh : b.contains '#' = true)
    (hc : c2.all (fun c => c != '#') = true) :
    unpack_paste (String.mk (base ++ (pasteLit ++ (b ++ '#' :: c2)))) =
      String.mk b := by
  unfold unpack_paste
  rw [show (String.mk (base ++ (pasteLit ++ (b ++ '#' :: c2)))).toList =
    base ++ (pasteLit ++ (b ++ '#' :: c2)) from rfl]
  rw [search_decomp base b c2 hno hb hc]

/-- Witness for the amended C9: `"/paste/a#b#c"` yields `"a#b"`. -/
theorem unpack_paste_last_hash_amended_witness :
    unpack_paste (String.mk (([] : List Char) ++
      (pasteLit ++ (("a#b".toList) ++ '#' :: ("c".toList))))) =
        String.mk ("a#b".toList) :=
  unpack_paste_last_hash_amended [] ("a#b".toList) ("c".toList)
    (by decide) (by decide) (by decide) (by decide)

/-- C6: in `delete_paste`, an item whose `Paste.load` fails (no paste with
that id) produces a plain does-not-exist message — suppressed when
`quiet` — leaves the store untouched, and processing continues with the
remaining items instead of an exception propagating. -/
theorem delete_paste_missing_continues (quiet : Bool) (store : List String)
    (p : String) (rest : List String)
    (h : store.contains (unpack_paste p) = false) :
    delete_paste quiet (p :: rest) store =
      ((delete_paste quiet rest store).1,
        (if quiet then [] else [DelMsg.missing (unpack_paste p)]) ++
          (delete_paste quiet rest store).2) := by
  have h2 : unpack_paste p ∉ store := by simpa using h
  simp [delete_paste, h2]

/-- Witness for C6: deleting `["nope", "zzz"]` against a store holding
only `"zzz"` reports `"nope"` as missing and still processes `"zzz"`. -/
theorem delete_paste_missing_continues_witness :
    delete_paste false ["nope", "zzz"] ["zzz"] =
      ((delete_paste false ["zzz"] ["zzz"]).1,
        (if false then [] else [DelMsg.missing (unpack_paste "nope")]) ++
          (delete_paste false ["zzz"] ["zzz"]).2) :=
  delete_paste_missing_continues false ["zzz"] "nope" ["zzz"] (by decide)

/-- C8: `set_admin_password` leaves the admin password file holding exactly
`hash_password(password)` — the hash, never the plaintext — whatever the
file store held before. -/
theorem set_admin_password_writes_hash (hash_password : String → List Nat)
    (admin_password_file : String) (password : String)
    (store : List (String × List Nat)) :
    readBytes
        (set_admin_password hash_password admin_password_file password store)
        admin_password_file = some (hash_password password) := by
  simp [readBytes, set_admin_password, write_bytes]
